import Mathlib

/-!
Shallow embedding of the COO sparse-matrix kernels of
`jax/experimental/sparse/coo.py` and proofs about them.

Conventions of the embedding:
* array values are integers (`ℤ`), exact stand-ins for the numeric dtypes;
* a 1-D array is a `List ℤ`, a 2-D array a `List (List ℤ)` (row major);
* index arrays are `List ℕ`;
* `jnp.zeros(n).at[idx].add(vals)` is `scatterAdd (List.replicate n 0) idx vals`,
  where an out-of-range index leaves the accumulator unchanged;
* reading `v[i]` is `v.getD i 0`.
-/

namespace COOSpec

/-- One scatter-add step into a 1-D accumulator: `acc.at[i].add x`. -/
def addAt (acc : List ℤ) (i : ℕ) (x : ℤ) : List ℤ :=
  acc.set i (acc.getD i 0 + x)

/-- `acc.at[idx].add vals` for a 1-D accumulator: repeated indices accumulate. -/
def scatterAdd (acc : List ℤ) : List ℕ → List ℤ → List ℤ
  | i :: is, x :: xs => scatterAdd (addAt acc i x) is xs
  | _, _ => acc

/-- One scatter-add step into a 2-D accumulator at cell `(r, c)`. -/
def addAt2 (m : List (List ℤ)) (r c : ℕ) (x : ℤ) : List (List ℤ) :=
  m.set r ((m.getD r []).set c ((m.getD r []).getD c 0 + x))

/-- `m.at[rows, cols].add vals` for a 2-D accumulator. -/
def scatterAdd2 (m : List (List ℤ)) : List ℕ → List ℕ → List ℤ → List (List ℤ)
  | r :: rs, c :: cs, x :: xs => scatterAdd2 (addAt2 m r c x) rs cs xs
  | _, _, _ => m

/-- Elementwise sum of two rows (`jnp` addition of equal-length rows). -/
def vecAdd (u v : List ℤ) : List ℤ := List.zipWith (· + ·) u v

/-- One row-wise scatter-add step into a 2-D accumulator: `acc.at[i].add x` with `x` a row. -/
def addRowAt (acc : List (List ℤ)) (i : ℕ) (x : List ℤ) : List (List ℤ) :=
  acc.set i (vecAdd (acc.getD i []) x)

/-- `acc.at[idx].add rows` adding whole rows. -/
def scatterAddRows (acc : List (List ℤ)) : List ℕ → List (List ℤ) → List (List ℤ)
  | i :: is, x :: xs => scatterAddRows (addRowAt acc i x) is xs
  | _, _ => acc

/-- `_coo_todense_impl(data, row, col, spinfo)`:
`jnp.zeros(spinfo.shape, data.dtype).at[row, col].add(data)`. -/
def coo_todense_impl (data : List ℤ) (row col : List ℕ) (shape : ℕ × ℕ) :
    List (List ℤ) :=
  scatterAdd2 (List.replicate shape.1 (List.replicate shape.2 0)) row col data

/-- `_coo_matvec_impl(data, row, col, v, spinfo, transpose)`:
swap `row`/`col` if `transpose`, then scatter `data * v[col]` into `y[row]`. -/
def coo_matvec_impl (data : List ℤ) (row col : List ℕ) (v : List ℤ)
    (shape : ℕ × ℕ) (transpose : Bool) : List ℤ :=
  let rc := if transpose then (col, row) else (row, col)
  let outShape := if transpose then shape.2 else shape.1
  let dv := List.zipWith (fun d c => d * v.getD c 0) data rc.2
  scatterAdd (List.replicate outShape 0) rc.1 dv

/-- `_coo_matmat_impl(data, row, col, B, spinfo, transpose)`:
swap `row`/`col` if `transpose`, then scatter the rows `data[i] * B[col[i]]`
into `C[row[i], :]`. -/
def coo_matmat_impl (data : List ℤ) (row col : List ℕ) (B : List (List ℤ))
    (shape : ℕ × ℕ) (transpose : Bool) : List (List ℤ) :=
  let rc := if transpose then (col, row) else (row, col)
  let outShape := if transpose then shape.2 else shape.1
  let dB := List.zipWith (fun d c => (B.getD c []).map (fun b => d * b)) data rc.2
  scatterAddRows (List.replicate outShape (List.replicate (B.headD []).length 0)) rc.1 dB

/-- Entry `M[rc.1][rc.2]` of a dense matrix, reading `0` out of range. -/
def entry (M : List (List ℤ)) (rc : ℕ × ℕ) : ℤ :=
  (M.getD rc.1 []).getD rc.2 0

/-- Row-major coordinates of the nonzero entries of one row `l`, the row index
being `r` and the first column index `c0`. -/
def rowNonzeroCoords (r : ℕ) : ℕ → List ℤ → List (ℕ × ℕ)
  | _, [] => []
  | c0, x :: xs =>
    if x ≠ 0 then (r, c0) :: rowNonzeroCoords r (c0 + 1) xs
    else rowNonzeroCoords r (c0 + 1) xs

/-- Row-major coordinates of the nonzero entries of the rows of `M`, the first
row index being `r0`. -/
def nonzeroCoordsAux (r0 : ℕ) : List (List ℤ) → List (ℕ × ℕ)
  | [] => []
  | l :: rest => rowNonzeroCoords r0 0 l ++ nonzeroCoordsAux (r0 + 1) rest

/-- Row-major coordinates of the nonzero entries of `M` (the order in which
`jnp.nonzero` reports them). -/
def nonzeroCoords (M : List (List ℤ)) : List (ℕ × ℕ) :=
  nonzeroCoordsAux 0 M

/-- `(mat != 0).sum()`: the number of nonzero entries of `mat`. -/
def countNonzero (mat : List (List ℤ)) : ℕ :=
  (mat.map (fun l => (l.filter (fun x => decide (x ≠ 0))).length)).sum

/-- `jnp.nonzero(mat, size=nse)` as a coordinate list: the row-major nonzero
coordinates, truncated to `nse` entries, padded with `(0, 0)` if fewer exist. -/
def nonzeroSize (mat : List (List ℤ)) (nse : ℕ) : List (ℕ × ℕ) :=
  (nonzeroCoords mat ++ List.replicate (nse - (nonzeroCoords mat).length) (0, 0)).take nse

/-- `_coo_fromdense_impl(mat, nse, index_dtype)`:
`row, col = jnp.nonzero(mat, size=nse)`; `data = mat[row, col]`;
`data = jnp.where(jnp.arange(nse) < (mat != 0).sum(), data, 0)`.
Returns `(data, row, col)`. -/
def coo_fromdense_impl (mat : List (List ℤ)) (nse : ℕ) :
    List ℤ × List ℕ × List ℕ :=
  (List.zipWith (fun i d => if i < countNonzero mat then d else 0)
     (List.range nse) ((nonzeroSize mat nse).map (entry mat)),
   (nonzeroSize mat nse).map Prod.fst,
   (nonzeroSize mat nse).map Prod.snd)

/-- The `COO` container: three parallel arrays, a shape, and the two layout
hint flags. -/
structure COO where
  data : List ℤ
  row : List ℕ
  col : List ℕ
  shape : ℕ × ℕ
  rows_sorted : Bool
  cols_sorted : Bool

/-- `coo_fromdense(mat, nse, index_dtype)`: when `nse` is `none` it is computed
as `(mat != 0).sum()`; the result is built with `rows_sorted=True` (and
`cols_sorted` left at its default `False`). -/
def coo_fromdense (mat : List (List ℤ)) (nse : Option ℕ) : COO :=
  let n := nse.getD (countNonzero mat)
  let t := coo_fromdense_impl mat n
  { data := t.1, row := t.2.1, col := t.2.2,
    shape := (mat.length, (mat.headD []).length),
    rows_sorted := true, cols_sorted := false }

/-- The boolean comparison `lax.sort` uses on `(row, col, data)` triples with
`num_keys=2`: lexicographic on the `(row, col)` key. -/
def lexLE (a b : (ℕ × ℕ) × ℤ) : Bool :=
  decide (a.1.1 < b.1.1) || (decide (a.1.1 = b.1.1) && decide (a.1.2 ≤ b.1.2))

/-- `COO._sort_indices`: return `self` unchanged if `_rows_sorted`; otherwise
stably sort the `(row, col, data)` triples by the `(row, col)` key
(`lax.sort((row, col, data), num_keys=2)`) and rebuild with
`rows_sorted=True` (and `cols_sorted` at its default `False`). -/
def sortIndices (m : COO) : COO :=
  if m.rows_sorted then m
  else
    let sorted := ((m.row.zip m.col).zip m.data).mergeSort lexLE
    { data := sorted.map (fun t => t.2), row := sorted.map (fun t => t.1.1),
      col := sorted.map (fun t => t.1.2), shape := m.shape,
      rows_sorted := true, cols_sorted := false }

/-- `COO._eye(N, M, k)`: `diag_size = min(N, M - k)` if `k > 0` else
`min(N + k, M)`; empty triple if `diag_size <= 0`; otherwise unit values with
`row = idx - (0 if k >= 0 else k)` and `col = idx + (k if k > 0 else 0)` for
`idx = arange(diag_size)`.  The index arithmetic is over `ℤ` as in the
source (Python ints / `lax` ops). -/
def coo_eye (N M : ℕ) (k : ℤ) : List ℤ × List ℤ × List ℤ :=
  let diagSize : ℤ := if 0 < k then min (N : ℤ) ((M : ℤ) - k) else min ((N : ℤ) + k) (M : ℤ)
  if diagSize ≤ 0 then ([], [], [])
  else
    let idx := (List.range diagSize.toNat).map Int.ofNat
    (List.replicate diagSize.toNat 1,
     idx.map (fun i => i - (if 0 ≤ k then 0 else k)),
     idx.map (fun i => i + (if k ≤ 0 then 0 else k)))

/-- Modelled from the spec: `_coo_extract(row, col, ct)` (defined in
`jax/experimental/sparse/util.py`, which is not part of this repository
snapshot) gathers a dense matrix at the sparsity pattern:
`extract(row, col, ct)[i] = ct[row[i], col[i]]`. -/
def coo_extract (row col : List ℕ) (M : List (List ℤ)) : List ℤ :=
  List.zipWith (fun r c => (M.getD r []).getD c 0) row col

/-- `jnp.outer(u, v)` (dense-array collaborator): the matrix with entries
`u[i] * v[j]`. -/
def outerProd (u v : List ℤ) : List (List ℤ) :=
  u.map (fun x => v.map (fun y => x * y))

/-- Inner product of two vectors of the same length. -/
def dot (u v : List ℤ) : ℤ :=
  (List.zipWith (· * ·) u v).sum

/-- The `data` branch of `_coo_matvec_transpose` (the branch taken when the
undefined primal is `data`): `ct[row] * v[col]`, i.e. the elementwise product
of the gather of `ct` at `row` with the gather of `v` at `col`. -/
def coo_matvec_transpose_data (ct v : List ℤ) (row col : List ℕ) : List ℤ :=
  List.zipWith (· * ·) (row.map (fun r => ct.getD r 0)) (col.map (fun c => v.getD c 0))

/-- An `ad` cotangent for an integer index output: either the symbolic zero
`ad.Zero` or an actual array. -/
inductive AdCt where
  | zero : AdCt
  | arr : List ℕ → AdCt

/-- `_coo_fromdense_transpose(ct, M, nse, index_dtype)`:
`data, row, col = ct`; asserts `len(data) == nse`; raises
`ValueError("Cannot transpose with respect to sparse indices")` when `row`
or `col` is `ad.Zero` (the dtype assertion on an `ad.Zero` likewise fails);
otherwise returns `_coo_todense(data, row, col, spinfo=shape of M)`. -/
def coo_fromdense_transpose (ct : List ℤ × AdCt × AdCt) (Mshape : ℕ × ℕ)
    (nse : ℕ) : Except String (List (List ℤ)) :=
  if ct.1.length ≠ nse then Except.error "assertion failed: len(data) == nse"
  else
    match ct.2.1, ct.2.2 with
    | AdCt.zero, _ => Except.error "Cannot transpose with respect to sparse indices"
    | _, AdCt.zero => Except.error "Cannot transpose with respect to sparse indices"
    | AdCt.arr row, AdCt.arr col => Except.ok (coo_todense_impl ct.1 row col Mshape)

/-- A dense matrix is rectangular with `R` rows and `C` columns. -/
def rectangular (mat : List (List ℤ)) (R C : ℕ) : Prop :=
  mat.length = R ∧ ∀ l ∈ mat, l.length = C

instance (mat : List (List ℤ)) (R C : ℕ) : Decidable (rectangular mat R C) := by
  unfold rectangular; infer_instance

/-- Sum of the values of the key/value pairs whose key is `k`. -/
def sumAt {κ : Type} [DecidableEq κ] (k : κ) (pairs : List (κ × ℤ)) : ℤ :=
  ((pairs.filter (fun p => decide (p.1 = k))).map Prod.snd).sum

/-- `Σ data[i] * u[ca[i]] * w[ra[i]]`, the common value of the inner products
appearing in the matvec adjoint identities. -/
def triSum (u w : List ℤ) : List ℤ → List ℕ → List ℕ → ℤ
  | d :: ds, c :: cs, r :: rs =>
      d * u.getD c 0 * w.getD r 0 + triSum u w ds cs rs
  | _, _, _ => 0

/-! ### Basic `getD`/`set` helpers -/

theorem getD_set_self {α : Type} (l : List α) (i : ℕ) (x d : α) (h : i < l.length) :
    (l.set i x).getD i d = x := by
  rw [List.getD_eq_getElem?_getD, List.getElem?_set_self h]
  rfl

theorem getD_set_ne {α : Type} (l : List α) {i j : ℕ} (x d : α) (h : i ≠ j) :
    (l.set i x).getD j d = l.getD j d := by
  rw [List.getD_eq_getElem?_getD, List.getElem?_set_ne h, ← List.getD_eq_getElem?_getD]

theorem getD_replicate {α : Type} {n i : ℕ} (x d : α) (h : i < n) :
    (List.replicate n x).getD i d = x := by
  rw [List.getD_eq_getElem (List.replicate n x) d (by simpa using h), List.getElem_replicate]

theorem getD_replicate_zero (n i : ℕ) : (List.replicate n (0 : ℤ)).getD i 0 = 0 := by
  rcases lt_or_le i n with h | h
  · exact getD_replicate _ _ h
  · exact List.getD_eq_default _ _ (by simpa using h)

/-! ### `dot` and 1-D scatter-add -/

theorem dot_nil_left (v : List ℤ) : dot [] v = 0 := rfl

theorem dot_comm (u : List ℤ) : ∀ v : List ℤ, dot u v = dot v u := by
  induction u with
  | nil => intro v; cases v <;> rfl
  | cons a u ih =>
    intro v
    cases v with
    | nil => rfl
    | cons b v => simp only [dot, List.zipWith_cons_cons, List.sum_cons] at *
                  rw [ih v, mul_comm]

theorem dot_replicate_zero (n : ℕ) : ∀ w : List ℤ, dot (List.replicate n 0) w = 0 := by
  induction n with
  | zero => intro w; rfl
  | succ n ih =>
    intro w
    cases w with
    | nil => rfl
    | cons b w => simp only [List.replicate_succ, dot, List.zipWith_cons_cons,
                    List.sum_cons, zero_mul, zero_add] at *
                  exact ih w

theorem dot_addAt (u : List ℤ) : ∀ (w : List ℤ) (i : ℕ) (x : ℤ), i < u.length →
    w.length = u.length →
    dot (addAt u i x) w = dot u w + x * w.getD i 0 := by
  induction u with
  | nil => intro w i x hi _; exact absurd hi (by simp)
  | cons a u ih =>
    intro w i x hi hw
    cases w with
    | nil => exact absurd hw (by simp)
    | cons b w =>
      cases i with
      | zero =>
        simp only [addAt, List.getD_cons_zero, List.set_cons_zero, dot,
          List.zipWith_cons_cons, List.sum_cons]
        ring
      | succ i =>
        have hi' : i < u.length := by simpa using hi
        have hw' : w.length = u.length := by simpa using hw
        simp only [addAt, List.getD_cons_succ, List.set_cons_succ, dot,
          List.zipWith_cons_cons, List.sum_cons] at *
        rw [ih w i x hi' hw']
        ring

theorem length_addAt (u : List ℤ) (i : ℕ) (x : ℤ) : (addAt u i x).length = u.length := by
  simp [addAt]

theorem triSum_nil_left (u w : List ℤ) (cs : List ℕ) (rs : List ℕ) :
    triSum u w [] cs rs = 0 := by
  cases cs <;> cases rs <;> rfl

theorem triSum_nil_mid (u w : List ℤ) (ds : List ℤ) (rs : List ℕ) :
    triSum u w ds [] rs = 0 := by
  cases ds <;> cases rs <;> rfl

theorem triSum_nil_right (u w : List ℤ) (ds : List ℤ) (cs : List ℕ) :
    triSum u w ds cs [] = 0 := by
  cases ds <;> cases cs <;> rfl

theorem triSum_swap (u w : List ℤ) : ∀ (ds : List ℤ) (cs rs : List ℕ),
    triSum u w ds cs rs = triSum w u ds rs cs := by
  intro ds
  induction ds with
  | nil => intro cs rs; rw [triSum_nil_left, triSum_nil_left]
  | cons d ds ih =>
    intro cs rs
    cases cs with
    | nil => rw [triSum_nil_mid, triSum_nil_right]
    | cons c cs =>
      cases rs with
      | nil => rw [triSum_nil_right, triSum_nil_mid]
      | cons r rs =>
        show d * u.getD c 0 * w.getD r 0 + triSum u w ds cs rs
          = d * w.getD r 0 * u.getD c 0 + triSum w u ds rs cs
        rw [ih cs rs]; ring

theorem dot_scatterAdd (u w : List ℤ) : ∀ (ra : List ℕ) (data : List ℤ) (ca : List ℕ)
    (acc : List ℤ), (∀ r ∈ ra, r < acc.length) → w.length = acc.length →
    dot (scatterAdd acc ra (List.zipWith (fun d c => d * u.getD c 0) data ca)) w
      = dot acc w + triSum u w data ca ra := by
  intro ra
  induction ra with
  | nil =>
    intro data ca acc _ _
    rw [triSum_nil_right]
    cases List.zipWith (fun d c => d * u.getD c 0) data ca <;> simp [scatterAdd]
  | cons r rs ih =>
    intro data ca acc hb hw
    cases data with
    | nil => simp [scatterAdd, triSum_nil_left]
    | cons d ds =>
      cases ca with
      | nil => simp [scatterAdd, triSum_nil_mid]
      | cons c cs =>
        have hr : r < acc.length := hb r (by simp)
        have hb' : ∀ x ∈ rs, x < (addAt acc r (d * u.getD c 0)).length := by
          intro x hx; rw [length_addAt]; exact hb x (by simp [hx])
        have hw' : w.length = (addAt acc r (d * u.getD c 0)).length := by
          rw [length_addAt]; exact hw
        show dot (scatterAdd (addAt acc r (d * u.getD c 0)) rs
            (List.zipWith (fun d c => d * u.getD c 0) ds cs)) w = _
        rw [ih ds cs _ hb' hw', dot_addAt acc w r (d * u.getD c 0) hr hw]
        show dot acc w + d * u.getD c 0 * w.getD r 0 + triSum u w ds cs rs
          = dot acc w + (d * u.getD c 0 * w.getD r 0 + triSum u w ds cs rs)
        ring

theorem dot_zipWith_tri (u w : List ℤ) : ∀ (ds : List ℤ) (rs cs : List ℕ),
    dot ds (List.zipWith (fun r c => w.getD r 0 * u.getD c 0) rs cs)
      = triSum u w ds cs rs := by
  intro ds
  induction ds with
  | nil => intro rs cs; rw [triSum_nil_left]; rfl
  | cons d ds ih =>
    intro rs cs
    cases rs with
    | nil => rw [triSum_nil_right]; rfl
    | cons r rs =>
      cases cs with
      | nil => rw [triSum_nil_mid]; rfl
      | cons c cs =>
        show d * (w.getD r 0 * u.getD c 0)
            + dot ds (List.zipWith (fun r c => w.getD r 0 * u.getD c 0) rs cs)
          = d * u.getD c 0 * w.getD r 0 + triSum u w ds cs rs
        rw [ih rs cs]; ring

/-! ### `sumAt` helpers -/

theorem sumAt_nil {κ : Type} [DecidableEq κ] (k : κ) : sumAt k [] = 0 := rfl

theorem sumAt_cons {κ : Type} [DecidableEq κ] (k k' : κ) (x : ℤ) (ps : List (κ × ℤ)) :
    sumAt k ((k', x) :: ps) = (if k' = k then x else 0) + sumAt k ps := by
  simp only [sumAt, List.filter_cons]
  split
  · next h => simp only [List.map_cons, List.sum_cons]
              rw [if_pos (by simpa using h)]
  · next h => rw [if_neg (by simpa using h), zero_add]

theorem sumAt_append {κ : Type} [DecidableEq κ] (k : κ) (p q : List (κ × ℤ)) :
    sumAt k (p ++ q) = sumAt k p + sumAt k q := by
  simp [sumAt, List.filter_append]

theorem sumAt_perm {κ : Type} [DecidableEq κ] (k : κ) {p q : List (κ × ℤ)}
    (h : p.Perm q) : sumAt k p = sumAt k q :=
  ((h.filter _).map _).sum_eq

theorem sumAt_replicate {κ : Type} [DecidableEq κ] (k k₀ : κ) (n : ℕ) :
    sumAt k (List.replicate n (k₀, (0 : ℤ))) = 0 := by
  induction n with
  | zero => rfl
  | succ n ih => rw [List.replicate_succ, sumAt_cons, ih]; split <;> simp

theorem sumAt_map_of_not_mem {κ : Type} [DecidableEq κ] (k : κ) (f : κ → ℤ) :
    ∀ (l : List κ), k ∉ l → sumAt k (l.map (fun x => (x, f x))) = 0 := by
  intro l
  induction l with
  | nil => intro _; rfl
  | cons a l ih =>
    intro h
    rw [List.map_cons, sumAt_cons, ih (fun hm => h (List.mem_cons_of_mem a hm)),
      if_neg (fun he => h (by rw [← he]; exact List.mem_cons_self a l)), add_zero]

theorem sumAt_map_nodup {κ : Type} [DecidableEq κ] (k : κ) (f : κ → ℤ) :
    ∀ (l : List κ), l.Nodup → sumAt k (l.map (fun x => (x, f x)))
      = if k ∈ l then f k else 0 := by
  intro l
  induction l with
  | nil => intro _; rfl
  | cons a l ih =>
    intro h
    rw [List.map_cons, sumAt_cons, ih (List.Nodup.of_cons h)]
    by_cases ha : a = k
    · subst ha
      rw [if_pos rfl, if_pos (List.mem_cons_self a l),
        if_neg (List.Nodup.not_mem h), add_zero]
    · rw [if_neg ha, zero_add]
      by_cases hk : k ∈ l
      · rw [if_pos hk, if_pos (List.mem_cons_of_mem a hk)]
      · rw [if_neg hk, if_neg (by simp only [List.mem_cons, not_or]
                                  exact ⟨fun he => ha he.symm, hk⟩)]

/-! ### 2-D scatter-add -/

theorem length_addAt2 (m : List (List ℤ)) (r c : ℕ) (x : ℤ) :
    (addAt2 m r c x).length = m.length := by
  simp [addAt2]

theorem rowlen_addAt2 (m : List (List ℤ)) (r c : ℕ) (x : ℤ) (a : ℕ) :
    ((addAt2 m r c x).getD a []).length = (m.getD a []).length := by
  unfold addAt2
  rcases le_or_lt m.length r with hr | hr
  · rw [List.set_eq_of_length_le hr]
  · by_cases hra : r = a
    · subst hra
      rw [getD_set_self _ _ _ _ hr, List.length_set]
    · rw [getD_set_ne _ _ _ hra]

theorem entry_addAt2_self (m : List (List ℤ)) (r c : ℕ) (x : ℤ)
    (hr : r < m.length) (hc : c < (m.getD r []).length) :
    entry (addAt2 m r c x) (r, c) = entry m (r, c) + x := by
  unfold addAt2 entry
  rw [getD_set_self _ _ _ _ hr, getD_set_self _ _ _ _ hc]

theorem entry_addAt2_ne (m : List (List ℤ)) (r c : ℕ) (x : ℤ) (a b : ℕ)
    (h : (r, c) ≠ (a, b)) : entry (addAt2 m r c x) (a, b) = entry m (a, b) := by
  unfold addAt2 entry
  rcases le_or_lt m.length r with hr | hr
  · rw [List.set_eq_of_length_le hr]
  · by_cases hra : r = a
    · subst hra
      have hcb : c ≠ b := fun he => h (by rw [he])
      rw [getD_set_self _ _ _ _ hr]
      exact getD_set_ne _ _ _ hcb
    · rw [getD_set_ne _ _ _ hra]

theorem entry_scatterAdd2 : ∀ (rows cols : List ℕ) (vals : List ℤ)
    (m : List (List ℤ)) (a b : ℕ), a < m.length → b < (m.getD a []).length →
    entry (scatterAdd2 m rows cols vals) (a, b)
      = entry m (a, b) + sumAt (a, b) ((rows.zip cols).zip vals) := by
  intro rows
  induction rows with
  | nil => intro cols vals m a b _ _; simp [scatterAdd2, sumAt_nil]
  | cons r rs ih =>
    intro cols vals m a b ha hb
    cases cols with
    | nil => simp [scatterAdd2, sumAt_nil]
    | cons c cs =>
      cases vals with
      | nil => simp [scatterAdd2, sumAt_nil]
      | cons x xs =>
        have ha' : a < (addAt2 m r c x).length := by rw [length_addAt2]; exact ha
        have hb' : b < ((addAt2 m r c x).getD a []).length := by
          rw [rowlen_addAt2]; exact hb
        show entry (scatterAdd2 (addAt2 m r c x) rs cs xs) (a, b) = _
        rw [ih cs xs _ a b ha' hb',
          List.zip_cons_cons, List.zip_cons_cons, sumAt_cons]
        by_cases h : (r, c) = (a, b)
        · rcases Prod.mk.injEq .. ▸ h with ⟨h1, h2⟩
          subst h1; subst h2
          rw [entry_addAt2_self m r c x ha hb, if_pos rfl]
          ring
        · rw [entry_addAt2_ne m r c x a b h, if_neg h, zero_add]

theorem length_scatterAdd2 : ∀ (rows cols : List ℕ) (vals : List ℤ)
    (m : List (List ℤ)), (scatterAdd2 m rows cols vals).length = m.length := by
  intro rows
  induction rows with
  | nil => intro cols vals m; cases cols <;> cases vals <;> rfl
  | cons r rs ih =>
    intro cols vals m
    cases cols with
    | nil => rfl
    | cons c cs =>
      cases vals with
      | nil => rfl
      | cons x xs => show (scatterAdd2 (addAt2 m r c x) rs cs xs).length = _
                     rw [ih cs xs, length_addAt2]

theorem rowlen_scatterAdd2 : ∀ (rows cols : List ℕ) (vals : List ℤ)
    (m : List (List ℤ)) (a : ℕ),
    ((scatterAdd2 m rows cols vals).getD a []).length = ((m.getD a []).length) := by
  intro rows
  induction rows with
  | nil => intro cols vals m a; cases cols <;> cases vals <;> rfl
  | cons r rs ih =>
    intro cols vals m a
    cases cols with
    | nil => rfl
    | cons c cs =>
      cases vals with
      | nil => rfl
      | cons x xs => show ((scatterAdd2 (addAt2 m r c x) rs cs xs).getD a []).length = _
                     rw [ih cs xs, rowlen_addAt2]

/-! ### Matrix extensionality and the `todense` entry formula -/

theorem matrix_ext (m1 m2 : List (List ℤ)) (hlen : m1.length = m2.length)
    (hrow : ∀ a, a < m1.length → (m1.getD a []).length = (m2.getD a []).length)
    (hentry : ∀ a b, a < m1.length → b < (m1.getD a []).length →
      entry m1 (a, b) = entry m2 (a, b)) : m1 = m2 := by
  apply List.ext_getElem hlen
  intro a h1 h2
  apply List.ext_getElem
  · have := hrow a h1
    rwa [List.getD_eq_getElem m1 [] h1, List.getD_eq_getElem m2 [] h2] at this
  · intro b hb1 hb2
    have := hentry a b h1 (by rwa [List.getD_eq_getElem m1 [] h1])
    unfold entry at this
    rwa [List.getD_eq_getElem m1 [] h1, List.getD_eq_getElem m2 [] h2,
      List.getD_eq_getElem _ 0 hb1, List.getD_eq_getElem _ 0 hb2] at this

theorem entry_zeros (R C a b : ℕ) (ha : a < R) :
    entry (List.replicate R (List.replicate C (0 : ℤ))) (a, b) = 0 := by
  unfold entry
  rw [getD_replicate _ _ ha, getD_replicate_zero]

theorem todense_entry (data : List ℤ) (row col : List ℕ) (R C a b : ℕ)
    (ha : a < R) (hb : b < C) :
    entry (coo_todense_impl data row col (R, C)) (a, b)
      = sumAt (a, b) ((row.zip col).zip data) := by
  unfold coo_todense_impl
  rw [entry_scatterAdd2 row col data _ a b (by simpa using ha)
    (by rw [getD_replicate _ _ ha]; simpa using hb), entry_zeros R C a b ha, zero_add]

theorem todense_length (data : List ℤ) (row col : List ℕ) (R C : ℕ) :
    (coo_todense_impl data row col (R, C)).length = R := by
  unfold coo_todense_impl
  rw [length_scatterAdd2]; simp

theorem todense_rowlen (data : List ℤ) (row col : List ℕ) (R C a : ℕ) (ha : a < R) :
    ((coo_todense_impl data row col (R, C)).getD a []).length = C := by
  unfold coo_todense_impl
  rw [rowlen_scatterAdd2, getD_replicate _ _ ha]; simp

theorem todense_eq_of_perm (data data' : List ℤ) (row col row' col' : List ℕ)
    (R C : ℕ) (h : ((row.zip col).zip data).Perm ((row'.zip col').zip data')) :
    coo_todense_impl data row col (R, C) = coo_todense_impl data' row' col' (R, C) := by
  apply matrix_ext
  · rw [todense_length, todense_length]
  · intro a ha
    rw [todense_length] at ha
    rw [todense_rowlen _ _ _ _ _ _ ha, todense_rowlen _ _ _ _ _ _ ha]
  · intro a b ha hb
    rw [todense_length] at ha
    rw [todense_rowlen _ _ _ _ _ _ ha] at hb
    rw [todense_entry _ _ _ _ _ _ _ ha hb, todense_entry _ _ _ _ _ _ _ ha hb]
    exact sumAt_perm _ h

/-! ### Nonzero-coordinate lemmas -/

theorem mem_rowNonzeroCoords (r : ℕ) : ∀ (l : List ℤ) (c0 a b : ℕ),
    (a, b) ∈ rowNonzeroCoords r c0 l ↔ (a = r ∧ c0 ≤ b ∧ l.getD (b - c0) 0 ≠ 0) := by
  intro l
  induction l with
  | nil =>
    intro c0 a b
    simp [rowNonzeroCoords]
  | cons x xs ih =>
    intro c0 a b
    unfold rowNonzeroCoords
    by_cases hx : x = 0
    · rw [if_neg (by simpa using hx), ih (c0 + 1) a b]
      constructor
      · rintro ⟨h1, h2, h3⟩
        refine ⟨h1, by omega, ?_⟩
        rwa [show b - c0 = (b - (c0 + 1)) + 1 by omega, List.getD_cons_succ]
      · rintro ⟨h1, h2, h3⟩
        have hb : c0 + 1 ≤ b := by
          rcases Nat.eq_or_lt_of_le h2 with he | hlt
          · exfalso; rw [← he, Nat.sub_self, List.getD_cons_zero] at h3; exact h3 hx
          · omega
        refine ⟨h1, hb, ?_⟩
        rwa [show b - c0 = (b - (c0 + 1)) + 1 by omega, List.getD_cons_succ] at h3
    · rw [if_pos (by simpa using hx), List.mem_cons, ih (c0 + 1) a b, Prod.mk.injEq]
      constructor
      · rintro (⟨h1, h2⟩ | ⟨h1, h2, h3⟩)
        · subst h1; subst h2
          exact ⟨rfl, le_refl _, by rwa [Nat.sub_self, List.getD_cons_zero]⟩
        · refine ⟨h1, by omega, ?_⟩
          rwa [show b - c0 = (b - (c0 + 1)) + 1 by omega, List.getD_cons_succ]
      · rintro ⟨h1, h2, h3⟩
        rcases Nat.eq_or_lt_of_le h2 with he | hlt
        · exact Or.inl ⟨h1, he.symm⟩
        · refine Or.inr ⟨h1, by omega, ?_⟩
          rwa [show b - c0 = (b - (c0 + 1)) + 1 by omega, List.getD_cons_succ] at h3

theorem nodup_rowNonzeroCoords (r : ℕ) : ∀ (l : List ℤ) (c0 : ℕ),
    (rowNonzeroCoords r c0 l).Nodup := by
  intro l
  induction l with
  | nil => intro c0; exact List.nodup_nil
  | cons x xs ih =>
    intro c0
    unfold rowNonzeroCoords
    split
    · refine List.Nodup.cons ?_ (ih (c0 + 1))
      intro hmem
      rcases (mem_rowNonzeroCoords r xs (c0 + 1) r c0).mp hmem with ⟨_, h2, _⟩
      omega
    · exact ih (c0 + 1)

theorem mem_nonzeroCoordsAux : ∀ (M : List (List ℤ)) (r0 a b : ℕ),
    (a, b) ∈ nonzeroCoordsAux r0 M
      ↔ (r0 ≤ a ∧ (M.getD (a - r0) []).getD b 0 ≠ 0) := by
  intro M
  induction M with
  | nil =>
    intro r0 a b
    simp [nonzeroCoordsAux]
  | cons l rest ih =>
    intro r0 a b
    unfold nonzeroCoordsAux
    rw [List.mem_append, mem_rowNonzeroCoords r0 l 0 a b, ih (r0 + 1) a b]
    constructor
    · rintro (⟨h1, _, h3⟩ | ⟨h1, h2⟩)
      · subst h1
        refine ⟨le_refl _, ?_⟩
        rw [Nat.sub_zero] at h3
        rwa [Nat.sub_self, List.getD_cons_zero]
      · refine ⟨by omega, ?_⟩
        rwa [show a - r0 = (a - (r0 + 1)) + 1 by omega, List.getD_cons_succ]
    · rintro ⟨h1, h2⟩
      rcases Nat.eq_or_lt_of_le h1 with he | hlt
      · subst he
        rw [Nat.sub_self, List.getD_cons_zero] at h2
        exact Or.inl ⟨rfl, Nat.zero_le _, by rwa [Nat.sub_zero]⟩
      · refine Or.inr ⟨by omega, ?_⟩
        rwa [show a - r0 = (a - (r0 + 1)) + 1 by omega, List.getD_cons_succ] at h2

theorem mem_nonzeroCoords (M : List (List ℤ)) (rc : ℕ × ℕ) :
    rc ∈ nonzeroCoords M ↔ entry M rc ≠ 0 := by
  obtain ⟨a, b⟩ := rc
  rw [nonzeroCoords, mem_nonzeroCoordsAux M 0 a b]
  unfold entry
  simp

theorem nodup_nonzeroCoordsAux : ∀ (M : List (List ℤ)) (r0 : ℕ),
    (nonzeroCoordsAux r0 M).Nodup := by
  intro M
  induction M with
  | nil => intro r0; exact List.nodup_nil
  | cons l rest ih =>
    intro r0
    refine List.Nodup.append (nodup_rowNonzeroCoords r0 l 0) (ih (r0 + 1)) ?_
    rintro ⟨a, b⟩ h1 h2
    rcases (mem_rowNonzeroCoords r0 l 0 a b).mp h1 with ⟨ha, _, _⟩
    rcases (mem_nonzeroCoordsAux rest (r0 + 1) a b).mp h2 with ⟨ha', _⟩
    omega

theorem nodup_nonzeroCoords (M : List (List ℤ)) : (nonzeroCoords M).Nodup :=
  nodup_nonzeroCoordsAux M 0

theorem sumAt_nonzeroPairs (M : List (List ℤ)) (k : ℕ × ℕ) :
    sumAt k ((nonzeroCoords M).map (fun rc => (rc, entry M rc))) = entry M k := by
  rw [sumAt_map_nodup k (entry M) _ (nodup_nonzeroCoords M)]
  by_cases h : k ∈ nonzeroCoords M
  · rw [if_pos h]
  · rw [if_neg h]
    by_contra hne
    exact h ((mem_nonzeroCoords M k).mpr (fun hz => hne hz.symm))

theorem length_rowNonzeroCoords (r : ℕ) : ∀ (l : List ℤ) (c0 : ℕ),
    (rowNonzeroCoords r c0 l).length = (l.filter (fun x => decide (x ≠ 0))).length := by
  intro l
  induction l with
  | nil => intro c0; rfl
  | cons x xs ih =>
    intro c0
    unfold rowNonzeroCoords
    rw [List.filter_cons]
    by_cases hx : x = 0
    · rw [if_neg (by simpa using hx), if_neg (by simpa using hx), ih (c0 + 1)]
    · rw [if_pos (by simpa using hx), if_pos (by simpa using hx)]
      simp [ih (c0 + 1)]

theorem length_nonzeroCoordsAux : ∀ (M : List (List ℤ)) (r0 : ℕ),
    (nonzeroCoordsAux r0 M).length
      = (M.map (fun l => (l.filter (fun x => decide (x ≠ 0))).length)).sum := by
  intro M
  induction M with
  | nil => intro r0; rfl
  | cons l rest ih =>
    intro r0
    unfold nonzeroCoordsAux
    rw [List.length_append, length_rowNonzeroCoords r0 l 0, ih (r0 + 1),
      List.map_cons, List.sum_cons]

theorem countNonzero_eq_length (M : List (List ℤ)) :
    countNonzero M = (nonzeroCoords M).length :=
  (length_nonzeroCoordsAux M 0).symm

/-! ### The `where`-mask of `_coo_fromdense_impl` -/

theorem zipWith_mask_keep (n : ℕ) : ∀ (l : List ℤ) (s : ℕ), s + l.length ≤ n →
    List.zipWith (fun i d => if i < n then d else 0) (List.range' s l.length) l = l := by
  intro l
  induction l with
  | nil => intro s _; rfl
  | cons x xs ih =>
    intro s h
    rw [show (x :: xs).length = xs.length + 1 from rfl, List.range'_succ,
      List.zipWith_cons_cons, if_pos (by simp at h; omega), ih (s + 1) (by simp at h ⊢; omega)]

theorem zipWith_mask_drop (n : ℕ) : ∀ (l : List ℤ) (s : ℕ), n ≤ s →
    List.zipWith (fun i d => if i < n then d else 0) (List.range' s l.length) l
      = List.replicate l.length 0 := by
  intro l
  induction l with
  | nil => intro s _; rfl
  | cons x xs ih =>
    intro s h
    rw [show (x :: xs).length = xs.length + 1 from rfl, List.range'_succ,
      List.zipWith_cons_cons, if_neg (by omega), ih (s + 1) (by omega),
      List.replicate_succ]

/-! ### Structure of `_coo_fromdense_impl` -/

theorem nonzeroSize_exact (mat : List (List ℤ)) :
    nonzeroSize mat (countNonzero mat) = nonzeroCoords mat := by
  unfold nonzeroSize
  rw [countNonzero_eq_length, Nat.sub_self, List.replicate_zero, List.append_nil,
    List.take_length]

theorem fromdense_exact (mat : List (List ℤ)) :
    coo_fromdense_impl mat (countNonzero mat)
      = ((nonzeroCoords mat).map (entry mat),
         (nonzeroCoords mat).map Prod.fst,
         (nonzeroCoords mat).map Prod.snd) := by
  have hlen : ((nonzeroCoords mat).map (entry mat)).length = countNonzero mat := by
    rw [List.length_map, countNonzero_eq_length]
  have hmask : List.zipWith (fun i d => if i < countNonzero mat then d else 0)
      (List.range (countNonzero mat)) ((nonzeroCoords mat).map (entry mat))
      = (nonzeroCoords mat).map (entry mat) := by
    calc List.zipWith (fun i d => if i < countNonzero mat then d else 0)
          (List.range (countNonzero mat)) ((nonzeroCoords mat).map (entry mat))
        = List.zipWith (fun i d => if i < countNonzero mat then d else 0)
          (List.range' 0 ((nonzeroCoords mat).map (entry mat)).length)
          ((nonzeroCoords mat).map (entry mat)) := by rw [List.range_eq_range', hlen]
      _ = (nonzeroCoords mat).map (entry mat) :=
          zipWith_mask_keep (countNonzero mat) _ 0 (by rw [hlen]; omega)
  unfold coo_fromdense_impl
  rw [nonzeroSize_exact, hmask]

theorem fromdense_padded (mat : List (List ℤ)) (nse : ℕ)
    (h : countNonzero mat ≤ nse) :
    coo_fromdense_impl mat nse
      = ((nonzeroCoords mat).map (entry mat)
           ++ List.replicate (nse - countNonzero mat) 0,
         (nonzeroCoords mat).map Prod.fst
           ++ List.replicate (nse - countNonzero mat) 0,
         (nonzeroCoords mat).map Prod.snd
           ++ List.replicate (nse - countNonzero mat) 0) := by
  have hk := countNonzero_eq_length mat
  have hco : nonzeroSize mat nse
      = nonzeroCoords mat ++ List.replicate (nse - countNonzero mat) (0, 0) := by
    unfold nonzeroSize
    rw [← countNonzero_eq_length,
      List.take_of_length_le (by rw [List.length_append, List.length_replicate, hk]; omega)]
  have hsplit : List.range nse
      = List.range' 0 (countNonzero mat) ++ List.range' (countNonzero mat)
          (nse - countNonzero mat) := by
    rw [List.range_eq_range']
    rw [show List.range' (countNonzero mat) (nse - countNonzero mat)
        = List.range' (0 + 1 * countNonzero mat) (nse - countNonzero mat) by norm_num]
    rw [List.range'_append 0 (countNonzero mat) (nse - countNonzero mat) 1]
    congr 1
    omega
  unfold coo_fromdense_impl
  rw [hco, List.map_append, List.map_append, List.map_append, List.map_replicate,
    List.map_replicate, List.map_replicate, hsplit, List.zipWith_append _ _ _ _ _
    (by rw [List.length_range', List.length_map]; omega)]
  have h1 : List.zipWith (fun i d => if i < countNonzero mat then d else 0)
      (List.range' 0 (countNonzero mat)) ((nonzeroCoords mat).map (entry mat))
      = (nonzeroCoords mat).map (entry mat) := by
    have hlen : ((nonzeroCoords mat).map (entry mat)).length = countNonzero mat := by
      rw [List.length_map, hk]
    calc List.zipWith (fun i d => if i < countNonzero mat then d else 0)
          (List.range' 0 (countNonzero mat)) ((nonzeroCoords mat).map (entry mat))
        = List.zipWith (fun i d => if i < countNonzero mat then d else 0)
          (List.range' 0 ((nonzeroCoords mat).map (entry mat)).length)
          ((nonzeroCoords mat).map (entry mat)) := by rw [hlen]
      _ = (nonzeroCoords mat).map (entry mat) :=
          zipWith_mask_keep (countNonzero mat) _ 0 (by rw [hlen]; omega)
  have h2 : List.zipWith (fun i d => if i < countNonzero mat then d else 0)
      (List.range' (countNonzero mat) (nse - countNonzero mat))
      (List.replicate (nse - countNonzero mat) (entry mat (0, 0)))
      = List.replicate (nse - countNonzero mat) 0 := by
    have hlen2 : (List.replicate (nse - countNonzero mat) (entry mat (0, 0))).length
        = nse - countNonzero mat := List.length_replicate _ _
    calc List.zipWith (fun i d => if i < countNonzero mat then d else 0)
          (List.range' (countNonzero mat) (nse - countNonzero mat))
          (List.replicate (nse - countNonzero mat) (entry mat (0, 0)))
        = List.zipWith (fun i d => if i < countNonzero mat then d else 0)
          (List.range' (countNonzero mat)
            (List.replicate (nse - countNonzero mat) (entry mat (0, 0))).length)
          (List.replicate (nse - countNonzero mat) (entry mat (0, 0))) := by rw [hlen2]
      _ = List.replicate
            (List.replicate (nse - countNonzero mat) (entry mat (0, 0))).length 0 :=
          zipWith_mask_drop (countNonzero mat) _ _ (le_refl _)
      _ = List.replicate (nse - countNonzero mat) 0 := by rw [hlen2]
  rw [h1, h2]

/-! ### Zip/rebuild helpers -/

theorem zip_map_pair {α κ κ' : Type} (f : α → κ) (g : α → κ') (h : α → ℤ) (l : List α) :
    ((l.map f).zip (l.map g)).zip (l.map h) = l.map (fun x => ((f x, g x), h x)) := by
  rw [List.zip_map' f g l, List.zip_map']

theorem coords_pairs (mat : List (List ℤ)) :
    (((nonzeroCoords mat).map Prod.fst).zip ((nonzeroCoords mat).map Prod.snd)).zip
        ((nonzeroCoords mat).map (entry mat))
      = (nonzeroCoords mat).map (fun rc => (rc, entry mat rc)) := by
  rw [zip_map_pair]

theorem triple_rebuild {κ κ' : Type} : ∀ (l : List ((κ × κ') × ℤ)),
    ((l.map (fun t => t.1.1)).zip (l.map (fun t => t.1.2))).zip (l.map (fun t => t.2))
      = l := by
  intro l
  rw [zip_map_pair]
  exact List.map_id l

/-! ### Round-trip core lemmas -/

theorem todense_nonzero_roundtrip (mat : List (List ℤ)) (R C : ℕ)
    (h : rectangular mat R C) :
    coo_todense_impl ((nonzeroCoords mat).map (entry mat))
      ((nonzeroCoords mat).map Prod.fst) ((nonzeroCoords mat).map Prod.snd)
      (R, C) = mat := by
  apply matrix_ext
  · rw [todense_length, h.1]
  · intro a ha
    rw [todense_length] at ha
    rw [todense_rowlen _ _ _ _ _ _ ha]
    have hm : a < mat.length := by rw [h.1]; exact ha
    rw [List.getD_eq_getElem mat [] hm]
    exact (h.2 _ (List.getElem_mem hm)).symm
  · intro a b ha hb
    rw [todense_length] at ha
    rw [todense_rowlen _ _ _ _ _ _ ha] at hb
    rw [todense_entry _ _ _ R C a b ha hb, coords_pairs, sumAt_nonzeroPairs]

theorem todense_append_pad (data : List ℤ) (row col : List ℕ) (n R C : ℕ)
    (hrc : row.length = col.length) (hd : data.length = row.length) :
    coo_todense_impl (data ++ List.replicate n 0) (row ++ List.replicate n 0)
        (col ++ List.replicate n 0) (R, C)
      = coo_todense_impl data row col (R, C) := by
  apply matrix_ext
  · rw [todense_length, todense_length]
  · intro a ha
    rw [todense_length] at ha
    rw [todense_rowlen _ _ _ _ _ _ ha, todense_rowlen _ _ _ _ _ _ ha]
  · intro a b ha hb
    rw [todense_length] at ha
    rw [todense_rowlen _ _ _ _ _ _ ha] at hb
    rw [todense_entry _ _ _ _ _ _ _ ha hb, todense_entry _ _ _ _ _ _ _ ha hb]
    rw [List.zip_append hrc, List.zip_replicate, Nat.min_self,
      List.zip_append (by rw [List.length_zip, hrc, Nat.min_self, ← hrc, hd]),
      List.zip_replicate, Nat.min_self, sumAt_append, sumAt_replicate, add_zero]

/-! ### `lexLE` is transitive and total -/

theorem lexLE_trans (a b c : (ℕ × ℕ) × ℤ) :
    lexLE a b = true → lexLE b c = true → lexLE a c = true := by
  unfold lexLE
  simp only [Bool.or_eq_true, Bool.and_eq_true, decide_eq_true_eq]
  omega

theorem lexLE_total (a b : (ℕ × ℕ) × ℤ) : (lexLE a b || lexLE b a) = true := by
  unfold lexLE
  simp only [Bool.or_eq_true, Bool.and_eq_true, decide_eq_true_eq]
  omega

/-! ### Gather/outer-product helpers for the matvec transpose rule -/

theorem transpose_data_eq_zipWith (ct v : List ℤ) (row col : List ℕ) :
    coo_matvec_transpose_data ct v row col
      = List.zipWith (fun r c => ct.getD r 0 * v.getD c 0) row col := by
  unfold coo_matvec_transpose_data
  rw [List.zipWith_map_left, List.zipWith_map_right]

theorem outer_entry (ct v : List ℤ) (r c : ℕ) (hr : r < ct.length) (hc : c < v.length) :
    ((outerProd ct v).getD r []).getD c 0 = ct.getD r 0 * v.getD c 0 := by
  unfold outerProd
  rw [List.getD_eq_getElem _ [] (by simpa using hr), List.getElem_map,
    List.getD_eq_getElem _ 0 (by simpa using hc), List.getElem_map,
    List.getD_eq_getElem ct 0 hr, List.getD_eq_getElem v 0 hc]

theorem extract_outer (ct v : List ℤ) : ∀ (row col : List ℕ),
    (∀ r ∈ row, r < ct.length) → (∀ c ∈ col, c < v.length) →
    coo_extract row col (outerProd ct v)
      = List.zipWith (fun r c => ct.getD r 0 * v.getD c 0) row col := by
  intro row
  induction row with
  | nil => intro col _ _; rfl
  | cons r rs ih =>
    intro col hr hc
    cases col with
    | nil => rfl
    | cons c cs =>
      show ((outerProd ct v).getD r []).getD c 0 :: coo_extract rs cs (outerProd ct v)
        = ct.getD r 0 * v.getD c 0 :: List.zipWith _ rs cs
      rw [outer_entry ct v r c (hr r (by simp)) (hc c (by simp)),
        ih cs (fun x hx => hr x (by simp [hx])) (fun x hx => hc x (by simp [hx]))]

/-! ## Claim theorems -/

/-- C2: evaluation of `_coo_fromdense_transpose` at concrete cotangents.  The
claim states the rule raises exactly when the cotangents on the index outputs
are *not* zero; the code does the opposite: with both index cotangents equal
to the symbolic zero `ad.Zero` it raises
`ValueError("Cannot transpose with respect to sparse indices")`, and with
non-zero (array) index cotangents it succeeds and returns the
`todense`-scatter. -/
theorem claim_C2_fromdense_transpose_eval :
    coo_fromdense_transpose ([1], AdCt.zero, AdCt.zero) (1, 1) 1
        = Except.error "Cannot transpose with respect to sparse indices" ∧
    coo_fromdense_transpose ([1], AdCt.arr [0], AdCt.arr [0]) (1, 1) 1
        = Except.ok [[1]] :=
  ⟨rfl, rfl⟩

/-- C3: the row/col-swap transformation used by the GPU dispatcher is
behaviour-preserving over the reference semantics: for every `data`, `row`,
`col`, dense operand, shape `(R, C)` and transpose flag `t`,
`matvec(data, col, row, v, shape=(C,R), transpose=not t)` equals
`matvec(data, row, col, v, shape=(R,C), transpose=t)`, and likewise for
`matmat`. -/
theorem claim_C3_dispatcher_swap (data : List ℤ) (row col : List ℕ) (v : List ℤ)
    (B : List (List ℤ)) (R C : ℕ) (t : Bool) :
    coo_matvec_impl data col row v (C, R) (!t) = coo_matvec_impl data row col v (R, C) t ∧
    coo_matmat_impl data col row B (C, R) (!t) = coo_matmat_impl data row col B (R, C) t := by
  cases t <;> exact ⟨rfl, rfl⟩

/-- C7 counterexample: with the *same* shape `(1, 2)` used in both calls, as the
claim (quantified over a single shape) states,
`matvec([1],[0],[1],[5],(1,2),transpose=True) = [0, 5]` has length 2 while
`matvec([1],[1],[0],[5],(1,2),transpose=False) = [0]` has length 1, so the two
are not equal. -/
theorem claim_C7_counterexample :
    ¬ (coo_matvec_impl [1] [0] [1] [5] (1, 2) true
        = coo_matvec_impl [1] [1] [0] [5] (1, 2) false) := by
  decide

/-- C7 (amended): swapping the roles of the index arrays is equivalent to the
transpose flag once the shape is swapped accordingly:
`matvec(data,row,col,v,(R,C),transpose=True)` equals
`matvec(data,col,row,v,(C,R),transpose=False)`. -/
theorem claim_C7_swap_is_transpose (data : List ℤ) (row col : List ℕ)
    (v : List ℤ) (R C : ℕ) :
    coo_matvec_impl data row col v (R, C) true
      = coo_matvec_impl data col row v (C, R) false := rfl

/-- C9: the banded-diagonal constructor produces exactly
`min(N, M-k)` (for `k > 0`; `min(N+k, M)` for `k ≤ 0`) unit-valued entries at
coordinates `(i, i+k)` for `k ≥ 0` and `(i-k, i)` for `k < 0` (an empty matrix
when that count is non-positive, i.e. when the diagonal lies outside the
shape); in particular shape `(3,3)` with `k=1` gives two unit entries at
`(0,1)` and `(1,2)`, and `k=5` gives an empty matrix. -/
theorem claim_C9_eye_spec :
    (∀ (N M : ℕ) (k : ℤ),
      (coo_eye N M k).1
          = List.replicate (if 0 < k then min (N : ℤ) ((M : ℤ) - k)
              else min ((N : ℤ) + k) (M : ℤ)).toNat (1 : ℤ) ∧
      (coo_eye N M k).2.1.zip (coo_eye N M k).2.2
          = (List.range (if 0 < k then min (N : ℤ) ((M : ℤ) - k)
              else min ((N : ℤ) + k) (M : ℤ)).toNat).map
              (fun i => if 0 ≤ k then (Int.ofNat i, Int.ofNat i + k)
                else (Int.ofNat i - k, Int.ofNat i))) ∧
    coo_eye 3 3 1 = ([1, 1], [0, 1], [1, 2]) ∧
    coo_eye 3 3 5 = ([], [], []) := by
  refine ⟨?_, by decide, by decide⟩
  intro N M k
  simp only [coo_eye]
  rcases le_or_lt (if 0 < k then min (N : ℤ) ((M : ℤ) - k)
      else min ((N : ℤ) + k) (M : ℤ)) 0 with hle | hgt
  · rw [if_pos hle, Int.toNat_of_nonpos hle]
    exact ⟨rfl, rfl⟩
  · rw [if_neg (not_le.mpr hgt)]
    refine ⟨rfl, ?_⟩
    dsimp only
    rw [List.map_map, List.map_map, List.zip_map']
    apply List.map_congr_left
    intro i _
    by_cases hk : 0 ≤ k
    · rw [if_pos hk]
      rcases eq_or_lt_of_le hk with he | hpos
      · rw [show k = 0 from he.symm]
        norm_num
      · have h1 : (if 0 ≤ k then (0 : ℤ) else k) = 0 := if_pos hk
        have h2 : (if k ≤ 0 then (0 : ℤ) else k) = k := if_neg (by omega)
        simp only [Function.comp_apply, h1, h2, sub_zero, if_pos hk]
    · rw [if_neg hk]
      have h1 : (if 0 ≤ k then (0 : ℤ) else k) = k := if_neg hk
      have h2 : (if k ≤ 0 then (0 : ℤ) else k) = 0 := if_pos (by omega)
      simp only [Function.comp_apply, h1, h2, add_zero, if_neg hk]

/-- C10: for every dense input and every `nse` (including the default computed
as the nonzero count), the matrix returned by the public `coo_fromdense` has
`rows_sorted = true` and `cols_sorted = false` — unconditionally — even though
for `nse` exceeding the true nonzero count the padding entries at `(0, 0)` can
make the row sequence not actually non-decreasing, as on
`[[0,0],[0,1]]` with `nse = 2`, whose row array is `[1, 0]`. -/
theorem claim_C10_fromdense_flags :
    (∀ (mat : List (List ℤ)) (nse : Option ℕ),
      (coo_fromdense mat nse).rows_sorted = true ∧
      (coo_fromdense mat nse).cols_sorted = false) ∧
    (coo_fromdense [[0, 0], [0, 1]] (some 2)).rows_sorted = true ∧
    ¬ List.Chain' (· ≤ ·) (coo_fromdense [[0, 0], [0, 1]] (some 2)).row := by
  refine ⟨fun mat nse => ⟨rfl, rfl⟩, rfl, ?_⟩
  rw [show (coo_fromdense [[0, 0], [0, 1]] (some 2)).row = [1, 0] from rfl]
  intro hch
  rw [List.chain'_cons] at hch
  omega

/-- C1 counterexample: the claim asserts the adjoint identity
`<matvec(ddata,row,col,v,transpose), ct> = <ddata, ct[row]*v[col]>` for either
value of the transpose flag.  At the square shape `(2,2)` with `ddata=[1]`,
`row=[0]`, `col=[1]`, `v=[0,1]`, `ct=[1,0]` and `transpose=True`, the left side
is `0` while the right side is `1`, so the identity fails for
`transpose=True`. -/
theorem claim_C1_counterexample :
    ¬ (dot (coo_matvec_impl [1] [0] [1] [0, 1] (2, 2) true) [1, 0]
        = dot [1] (coo_matvec_transpose_data [1, 0] [0, 1] [0] [1])) := by
  decide

/-- C1 (amended): for matching shapes, the matvec reverse-mode rule's cotangent
with respect to `data` is the elementwise product `ct[row[i]] * v[col[i]]` for
each `i` (for either value of the transpose flag, since the rule ignores it),
which equals extracting `outer(ct, v)` at the sparsity pattern; and for
`transpose=False` it satisfies the adjoint identity
`<matvec(ddata,row,col,v,False), ct> = <ddata, ct[row]*v[col]>` for every
tangent `ddata`. -/
theorem claim_C1_data_adjoint (ddata ct v : List ℤ) (row col : List ℕ) (R C : ℕ)
    (hrow : ∀ r ∈ row, r < R) (hcol : ∀ c ∈ col, c < C)
    (hct : ct.length = R) (hv : v.length = C) :
    coo_matvec_transpose_data ct v row col
        = List.zipWith (fun r c => ct.getD r 0 * v.getD c 0) row col ∧
    coo_matvec_transpose_data ct v row col
        = coo_extract row col (outerProd ct v) ∧
    dot (coo_matvec_impl ddata row col v (R, C) false) ct
        = dot ddata (coo_matvec_transpose_data ct v row col) := by
  refine ⟨transpose_data_eq_zipWith ct v row col, ?_, ?_⟩
  · rw [transpose_data_eq_zipWith,
      extract_outer ct v row col (fun r hr => by rw [hct]; exact hrow r hr)
        (fun c hc => by rw [hv]; exact hcol c hc)]
  · show dot (scatterAdd (List.replicate R 0) row
        (List.zipWith (fun d c => d * v.getD c 0) ddata col)) ct = _
    rw [dot_scatterAdd v ct row ddata col (List.replicate R 0)
        (fun r hr => by rw [List.length_replicate]; exact hrow r hr)
        (by rw [List.length_replicate]; exact hct),
      dot_replicate_zero, zero_add, transpose_data_eq_zipWith,
      dot_zipWith_tri v ct ddata row col]

/-- C1 witness: the amended theorem applied at `ddata=[2]`, `ct=[5,6]`,
`v=[3,4]`, `row=[0]`, `col=[1]`, shape `(2,2)`. -/
theorem claim_C1_witness :
    (∀ r ∈ [0], r < 2) ∧ (∀ c ∈ [1], c < 2) ∧
    ([5, 6] : List ℤ).length = 2 ∧ ([3, 4] : List ℤ).length = 2 ∧
    (coo_matvec_transpose_data [5, 6] [3, 4] [0] [1]
        = List.zipWith (fun r c => ([5, 6] : List ℤ).getD r 0
            * ([3, 4] : List ℤ).getD c 0) [0] [1] ∧
     coo_matvec_transpose_data [5, 6] [3, 4] [0] [1]
        = coo_extract [0] [1] (outerProd [5, 6] [3, 4]) ∧
     dot (coo_matvec_impl [2] [0] [1] [3, 4] (2, 2) false) [5, 6]
        = dot [2] (coo_matvec_transpose_data [5, 6] [3, 4] [0] [1])) :=
  ⟨by decide, by decide, rfl, rfl,
    claim_C1_data_adjoint [2] [5, 6] [3, 4] [0] [1] 2 2
      (by decide) (by decide) rfl rfl⟩

/-- C6: the adjoint/transpose identity for the dense operand: for matching
shapes, `<matvec(data,row,col,v,transpose), ct>` equals
`<v, matvec(data,row,col,ct,transpose=not transpose)>`; the reverse-mode rule
for `v` applies the matrix transpose to the output cotangent. -/
theorem claim_C6_vec_adjoint (data : List ℤ) (row col : List ℕ) (v ct : List ℤ)
    (R C : ℕ) (t : Bool)
    (hrow : ∀ r ∈ row, r < R) (hcol : ∀ c ∈ col, c < C)
    (hv : v.length = if t then R else C) (hct : ct.length = if t then C else R) :
    dot (coo_matvec_impl data row col v (R, C) t) ct
      = dot v (coo_matvec_impl data row col ct (R, C) (!t)) := by
  cases t with
  | false =>
    have hv' : v.length = C := hv
    have hct' : ct.length = R := hct
    show dot (scatterAdd (List.replicate R 0) row
        (List.zipWith (fun d c => d * v.getD c 0) data col)) ct
      = dot v (scatterAdd (List.replicate C 0) col
        (List.zipWith (fun d c => d * ct.getD c 0) data row))
    rw [dot_scatterAdd v ct row data col (List.replicate R 0)
        (fun r hr => by rw [List.length_replicate]; exact hrow r hr)
        (by rw [List.length_replicate]; exact hct'),
      dot_replicate_zero, zero_add, dot_comm v,
      dot_scatterAdd ct v col data row (List.replicate C 0)
        (fun c hc => by rw [List.length_replicate]; exact hcol c hc)
        (by rw [List.length_replicate]; exact hv'),
      dot_replicate_zero, zero_add]
    exact triSum_swap v ct data col row
  | true =>
    have hv' : v.length = R := hv
    have hct' : ct.length = C := hct
    show dot (scatterAdd (List.replicate C 0) col
        (List.zipWith (fun d c => d * v.getD c 0) data row)) ct
      = dot v (scatterAdd (List.replicate R 0) row
        (List.zipWith (fun d c => d * ct.getD c 0) data col))
    rw [dot_scatterAdd v ct col data row (List.replicate C 0)
        (fun c hc => by rw [List.length_replicate]; exact hcol c hc)
        (by rw [List.length_replicate]; exact hct'),
      dot_replicate_zero, zero_add, dot_comm v,
      dot_scatterAdd ct v row data col (List.replicate R 0)
        (fun r hr => by rw [List.length_replicate]; exact hrow r hr)
        (by rw [List.length_replicate]; exact hv'),
      dot_replicate_zero, zero_add]
    exact triSum_swap v ct data row col

/-- C6 witness: the adjoint identity applied at `data=[7]`, `row=[0]`,
`col=[1]`, `v=[3,4]`, `ct=[5,6]`, shape `(2,2)`, `transpose=False`. -/
theorem claim_C6_witness :
    (∀ r ∈ [0], r < 2) ∧ (∀ c ∈ [1], c < 2) ∧
    ([3, 4] : List ℤ).length = (if false then 2 else 2) ∧
    ([5, 6] : List ℤ).length = (if false then 2 else 2) ∧
    dot (coo_matvec_impl [7] [0] [1] [3, 4] (2, 2) false) [5, 6]
      = dot [3, 4] (coo_matvec_impl [7] [0] [1] [5, 6] (2, 2) (!false)) :=
  ⟨by decide, by decide, rfl, rfl,
    claim_C6_vec_adjoint [7] [0] [1] [3, 4] [5, 6] 2 2 false
      (by decide) (by decide) rfl rfl⟩

/-- C4: for every rectangular dense matrix `M` with exactly `k` nonzero
entries (`k = (M != 0).sum()`), `todense(fromdense(M, nse=k)) = M` exactly. -/
theorem claim_C4_roundtrip (mat : List (List ℤ)) (R C : ℕ)
    (h : rectangular mat R C) :
    coo_todense_impl (coo_fromdense_impl mat (countNonzero mat)).1
      (coo_fromdense_impl mat (countNonzero mat)).2.1
      (coo_fromdense_impl mat (countNonzero mat)).2.2 (R, C) = mat := by
  rw [fromdense_exact]
  exact todense_nonzero_roundtrip mat R C h

/-- C4 witness: the round-trip applied to `[[1,0],[0,2]]` (two nonzeros). -/
theorem claim_C4_witness :
    rectangular [[1, 0], [0, 2]] 2 2 ∧
    coo_todense_impl (coo_fromdense_impl [[1, 0], [0, 2]]
        (countNonzero [[1, 0], [0, 2]])).1
      (coo_fromdense_impl [[1, 0], [0, 2]] (countNonzero [[1, 0], [0, 2]])).2.1
      (coo_fromdense_impl [[1, 0], [0, 2]] (countNonzero [[1, 0], [0, 2]])).2.2
      (2, 2) = [[1, 0], [0, 2]] :=
  ⟨by decide, claim_C4_roundtrip [[1, 0], [0, 2]] 2 2 (by decide)⟩

/-- C5: for every rectangular dense matrix `M` with exactly `k` nonzero entries
and every requested `nse > k`, `fromdense(M, nse)` yields the same `k` true
coordinates (in row-major order) as `fromdense(M, nse=k)` followed by
`nse - k` padding entries of value `0` at coordinate `(0, 0)`; all three output
arrays have length exactly `nse`, and `todense` of the padded result still
equals `M`. -/
theorem claim_C5_padding (mat : List (List ℤ)) (R C nse : ℕ)
    (h : rectangular mat R C) (hn : countNonzero mat < nse) :
    (coo_fromdense_impl mat nse).1
        = (coo_fromdense_impl mat (countNonzero mat)).1
          ++ List.replicate (nse - countNonzero mat) 0 ∧
    (coo_fromdense_impl mat nse).2.1
        = (coo_fromdense_impl mat (countNonzero mat)).2.1
          ++ List.replicate (nse - countNonzero mat) 0 ∧
    (coo_fromdense_impl mat nse).2.2
        = (coo_fromdense_impl mat (countNonzero mat)).2.2
          ++ List.replicate (nse - countNonzero mat) 0 ∧
    (coo_fromdense_impl mat nse).1.length = nse ∧
    (coo_fromdense_impl mat nse).2.1.length = nse ∧
    (coo_fromdense_impl mat nse).2.2.length = nse ∧
    coo_todense_impl (coo_fromdense_impl mat nse).1
      (coo_fromdense_impl mat nse).2.1
      (coo_fromdense_impl mat nse).2.2 (R, C) = mat := by
  have hk := countNonzero_eq_length mat
  have hp := fromdense_padded mat nse (le_of_lt hn)
  have he := fromdense_exact mat
  refine ⟨?_, ?_, ?_, ?_, ?_, ?_, ?_⟩
  · rw [hp, he]
  · rw [hp, he]
  · rw [hp, he]
  · rw [hp]
    show ((nonzeroCoords mat).map (entry mat)
      ++ List.replicate (nse - countNonzero mat) 0).length = nse
    rw [List.length_append, List.length_map, List.length_replicate]
    omega
  · rw [hp]
    show ((nonzeroCoords mat).map Prod.fst
      ++ List.replicate (nse - countNonzero mat) 0).length = nse
    rw [List.length_append, List.length_map, List.length_replicate]
    omega
  · rw [hp]
    show ((nonzeroCoords mat).map Prod.snd
      ++ List.replicate (nse - countNonzero mat) 0).length = nse
    rw [List.length_append, List.length_map, List.length_replicate]
    omega
  · rw [hp]
    show coo_todense_impl ((nonzeroCoords mat).map (entry mat)
        ++ List.replicate (nse - countNonzero mat) 0)
      ((nonzeroCoords mat).map Prod.fst ++ List.replicate (nse - countNonzero mat) 0)
      ((nonzeroCoords mat).map Prod.snd ++ List.replicate (nse - countNonzero mat) 0)
      (R, C) = mat
    rw [todense_append_pad _ _ _ _ _ _ (by rw [List.length_map, List.length_map])
      (by rw [List.length_map, List.length_map])]
    exact todense_nonzero_roundtrip mat R C h

/-- C5 witness: padding applied to `[[1,0],[0,2]]` (two nonzeros) with
`nse = 3`. -/
theorem claim_C5_witness :
    rectangular [[1, 0], [0, 2]] 2 2 ∧ countNonzero [[1, 0], [0, 2]] < 3 ∧
    coo_todense_impl (coo_fromdense_impl [[1, 0], [0, 2]] 3).1
      (coo_fromdense_impl [[1, 0], [0, 2]] 3).2.1
      (coo_fromdense_impl [[1, 0], [0, 2]] 3).2.2 (2, 2) = [[1, 0], [0, 2]] :=
  ⟨by decide, by decide,
    (claim_C5_padding [[1, 0], [0, 2]] 2 2 3 (by decide) (by decide)).2.2.2.2.2.2⟩

/-- C8: `_sort_indices` returns the same instance unchanged when `rows_sorted`
is already true; otherwise it returns a matrix with `rows_sorted = true` whose
`(row, col)` key sequence is lexicographically non-decreasing (rows
non-decreasing, cols non-decreasing within each equal-row run), whose
`(row, col, data)` triples are a permutation of the input's (a stable sort by
the `(row, col)` key with `data` reordered in lockstep), and whose `todense`
result is identical to `todense` of the unsorted matrix. -/
theorem claim_C8_sort_spec (m : COO) :
    (m.rows_sorted = true → sortIndices m = m) ∧
    (m.rows_sorted = false →
      (sortIndices m).rows_sorted = true ∧
      List.Chain' (fun a b => a.1 < b.1 ∨ (a.1 = b.1 ∧ a.2 ≤ b.2))
        ((sortIndices m).row.zip (sortIndices m).col) ∧
      (((sortIndices m).row.zip (sortIndices m).col).zip (sortIndices m).data).Perm
        ((m.row.zip m.col).zip m.data) ∧
      coo_todense_impl (sortIndices m).data (sortIndices m).row (sortIndices m).col
          m.shape
        = coo_todense_impl m.data m.row m.col m.shape) := by
  constructor
  · intro h
    unfold sortIndices
    rw [if_pos h]
  · intro h
    have hs : sortIndices m
        = { data := (((m.row.zip m.col).zip m.data).mergeSort lexLE).map (fun t => t.2),
            row := (((m.row.zip m.col).zip m.data).mergeSort lexLE).map (fun t => t.1.1),
            col := (((m.row.zip m.col).zip m.data).mergeSort lexLE).map (fun t => t.1.2),
            shape := m.shape, rows_sorted := true, cols_sorted := false } := by
      unfold sortIndices
      rw [if_neg (by rw [h]; exact Bool.false_ne_true)]
    rw [hs]
    dsimp only
    have hperm0 := List.mergeSort_perm ((m.row.zip m.col).zip m.data) lexLE
    have hpair := List.sorted_mergeSort lexLE_trans lexLE_total
      ((m.row.zip m.col).zip m.data)
    refine ⟨rfl, ?_, ?_, ?_⟩
    · rw [List.zip_map', List.chain'_map]
      refine List.Pairwise.chain' (hpair.imp ?_)
      intro a b hab
      unfold lexLE at hab
      simp only [Bool.or_eq_true, Bool.and_eq_true, decide_eq_true_eq] at hab
      dsimp only
      omega
    · rw [triple_rebuild]
      exact hperm0
    · exact todense_eq_of_perm _ _ _ _ _ _ m.shape.1 m.shape.2
        (by rw [triple_rebuild]; exact hperm0)

/-- C8 witness: the sort specification applied to a rows-sorted instance (the
no-op branch) and to an unsorted instance (the sorting branch). -/
theorem claim_C8_witness :
    sortIndices (COO.mk [1] [0] [0] (1, 1) true false)
      = COO.mk [1] [0] [0] (1, 1) true false ∧
    (sortIndices (COO.mk [5, 6] [1, 0] [0, 0] (2, 2) false false)).rows_sorted
      = true :=
  ⟨(claim_C8_sort_spec _).1 rfl, ((claim_C8_sort_spec _).2 rfl).1⟩

end COOSpec
